import Mathlib

/-!
Verification development for the stock-index model-comparison repository.

This file gives a shallow embedding, in Lean 4, of the temporal
feature-engineering and leakage-safe evaluation pipeline:

* `src/train_test_split.py` : the `TimeSeriesSplit` class (chronological
  train/test split of a time-indexed dataframe);
* `src/feature_engineering.py` : the `FeatureEngineering` column
  derivations (pct change, SMA, EMA, RSI, MACD, lags, temporal columns,
  targets) and the `DataPrep` orchestration (filter by instrument label,
  engineer, drop incomplete rows);
* `src/models/base.py` : the `BaseTrainer.evaluate` metric computation.

Dataframes are modelled as lists of rows; float columns are modelled by
the type `FVal`, which represents an IEEE-754 double as either NaN,
plus or minus infinity, or an exact rational (the arithmetic performed
by the pipeline on the inputs we reason about is exact, so rounding is
not modelled; the special values NaN and infinity, which the claims are
about, are modelled faithfully, with the two IEEE zeros collapsed to
the single rational zero).
-/

/-! ### Model of src/train_test_split.py -/

/-- One row of a time-indexed dataframe: the `DatetimeIndex` entry
(days since the epoch) together with its close price.  The remaining
OHLCV columns are carried through `TimeSeriesSplit.split` unchanged and
play no role in the claims, so they are omitted from the model. -/
structure TSRow where
  date : ℤ
  close : ℚ
deriving DecidableEq

/-- A pandas dataframe as consumed by `TimeSeriesSplit`: its rows plus
the one index property the code inspects, namely whether the index is a
`DatetimeIndex`. -/
structure PandasDF where
  hasDatetimeIndex : Bool
  rows : List TSRow
deriving DecidableEq

/-- The `ValueError` cases raised by `TimeSeriesSplit._validate_input`
(the message strings are irrelevant to the claims). -/
inductive SplitError where
  | emptyOrNone
  | notDatetimeIndex
  | tooFewRows
deriving DecidableEq

instance {ε α : Type _} [DecidableEq ε] [DecidableEq α] : DecidableEq (Except ε α) := fun a b =>
  match a, b with
  | .error e, .error f =>
      if h : e = f then isTrue (congrArg Except.error h)
      else isFalse (fun hc => h (by injection hc))
  | .error _, .ok _ => isFalse (fun hc => Except.noConfusion hc)
  | .ok _, .error _ => isFalse (fun hc => Except.noConfusion hc)
  | .ok x, .ok y =>
      if h : x = y then isTrue (congrArg Except.ok h)
      else isFalse (fun hc => h (by injection hc))

/-- Python `int()` applied to a real number: truncation toward zero.
For the nonnegative quantities arising in `split` this is the floor. -/
def pyInt (q : ℚ) : ℤ :=
  if 0 ≤ q then q.floor else -((-q).floor)

/-- The `TimeSeriesSplit` object: its single field `test_size`
(source `__init__` additionally rejects `test_size` outside the open
interval (0,1); the theorems below carry that as a hypothesis). -/
structure TimeSeriesSplit where
  test_size : ℚ
deriving DecidableEq

/-- `TimeSeriesSplit._validate_input` (src/train_test_split.py lines
28-35): reject an empty dataframe, a non-`DatetimeIndex` index, and a
dataframe with fewer than 2 rows, in that order.  Nothing else is
checked; in particular the ordering of the dates is not inspected. -/
def TimeSeriesSplit.validate_input (df : PandasDF) : Except SplitError Unit :=
  if df.rows.isEmpty then .error .emptyOrNone
  else if !df.hasDatetimeIndex then .error .notDatetimeIndex
  else if df.rows.length < 2 then .error .tooFewRows
  else .ok ()

/-- `TimeSeriesSplit.split` (src/train_test_split.py lines 37-59):
validate, compute `split_point = int(n * (1 - test_size))`, and return
the prefix/suffix pair `(df.iloc[:split_point], df.iloc[split_point:])`. -/
def TimeSeriesSplit.split (self : TimeSeriesSplit) (df : PandasDF) :
    Except SplitError (List TSRow × List TSRow) :=
  match TimeSeriesSplit.validate_input df with
  | .error e => .error e
  | .ok _ =>
      let n := df.rows.length
      let splitPoint := (pyInt ((n : ℚ) * (1 - self.test_size))).toNat
      .ok (df.rows.take splitPoint, df.rows.drop splitPoint)

/-- Decidable check that a row list is strictly ascending in its date
key (the documented precondition of `split`). -/
def strictlySortedByDate : List TSRow → Bool
  | [] => true
  | [_] => true
  | a :: b :: rest => decide (a.date < b.date) && strictlySortedByDate (b :: rest)

/-! ### FVal: the value space of a pandas float column

A cell of a pandas float column is an IEEE-754 double.  The claims
about `feature_engineering.py` hinge on the special values (NaN from
missing history, infinity from division by zero), never on rounding,
so a cell is modelled as NaN, plus or minus infinity, or an exact
rational.  The two signed IEEE zeros are collapsed into the rational 0;
the only division by zero performed by the pipeline divides by the
positive zero (a trailing mean of nonnegative values), so `x / 0 = +inf`
for `x > 0`, matching IEEE with a positive zero divisor. -/

inductive FVal where
  | nan : FVal
  | ninf : FVal
  | inf : FVal
  | num : ℚ → FVal
deriving DecidableEq

namespace FVal

/-- A cell is the pandas missing-value sentinel. -/
def isNan : FVal → Bool
  | nan => true
  | _ => false

/-- IEEE negation. -/
def neg : FVal → FVal
  | nan => nan
  | inf => ninf
  | ninf => inf
  | num a => num (-a)

/-- IEEE addition (NaN absorbing, `inf + -inf = NaN`). -/
def add : FVal → FVal → FVal
  | nan, _ => nan
  | _, nan => nan
  | inf, ninf => nan
  | ninf, inf => nan
  | inf, _ => inf
  | _, inf => inf
  | ninf, _ => ninf
  | _, ninf => ninf
  | num a, num b => num (a + b)

/-- IEEE subtraction. -/
def sub (a b : FVal) : FVal := add a (neg b)

/-- IEEE multiplication (`inf * 0 = NaN`). -/
def mul : FVal → FVal → FVal
  | nan, _ => nan
  | _, nan => nan
  | inf, inf => inf
  | inf, ninf => ninf
  | ninf, inf => ninf
  | ninf, ninf => inf
  | inf, num b => if b = 0 then nan else if 0 < b then inf else ninf
  | num a, inf => if a = 0 then nan else if 0 < a then inf else ninf
  | ninf, num b => if b = 0 then nan else if 0 < b then ninf else inf
  | num a, ninf => if a = 0 then nan else if 0 < a then ninf else inf
  | num a, num b => num (a * b)

/-- IEEE division: `0 / 0 = NaN`, `x / 0 = ±inf` for `x ≠ 0` (zero is
treated as the positive zero, see the remark above), `x / ±inf = 0`,
`±inf / ±inf = NaN`. -/
def div : FVal → FVal → FVal
  | nan, _ => nan
  | _, nan => nan
  | inf, inf => nan
  | inf, ninf => nan
  | ninf, inf => nan
  | ninf, ninf => nan
  | inf, num b => if 0 ≤ b then inf else ninf
  | ninf, num b => if 0 ≤ b then ninf else inf
  | num _, inf => num 0
  | num _, ninf => num 0
  | num a, num b =>
      if b = 0 then (if a = 0 then nan else if 0 < a then inf else ninf)
      else num (a / b)

/-- IEEE ordering test (any comparison with NaN is false). -/
def lt : FVal → FVal → Bool
  | nan, _ => false
  | _, nan => false
  | inf, _ => false
  | _, inf => true
  | ninf, ninf => false
  | ninf, _ => true
  | _, ninf => false
  | num a, num b => decide (a < b)

/-- pandas `clip(lower=0)`: pointwise `max` with 0, NaN preserved. -/
def clip_lower0 : FVal → FVal
  | nan => nan
  | inf => inf
  | ninf => num 0
  | num a => num (max a 0)

/-- pandas `clip(upper=0)`: pointwise `min` with 0, NaN preserved. -/
def clip_upper0 : FVal → FVal
  | nan => nan
  | inf => num 0
  | ninf => ninf
  | num a => num (min a 0)

instance : Add FVal := ⟨FVal.add⟩
instance : Sub FVal := ⟨FVal.sub⟩
instance : Mul FVal := ⟨FVal.mul⟩
instance : Div FVal := ⟨FVal.div⟩
instance : Neg FVal := ⟨FVal.neg⟩

end FVal

/-- Sum of a list of cells using IEEE addition (a NaN anywhere makes the
sum NaN, as in the numerator of a pandas rolling mean over a full
window). -/
def sumF (l : List FVal) : FVal := l.foldr FVal.add (.num 0)

/-- pandas `series.rolling(w).mean()` at position `t`, for a series
given as a function of the position: NaN while the window is not yet
full, otherwise the mean of the `w` cells `t - w + 1 .. t`; a NaN cell
inside a full window makes the mean NaN (the default
`min_periods = window` requires `w` non-missing values).  pandas
rejects `w = 0`; the value at `w = 0` is irrelevant and set to NaN. -/
def rollingMean (f : ℕ → FVal) (w t : ℕ) : FVal :=
  if w = 0 ∨ t + 1 < w then .nan
  else sumF ((List.range w).map (fun i => f (t - i))) / .num (w : ℚ)

/-! ### Model of src/feature_engineering.py, class FeatureEngineering

The input series is a list of `PriceRow`s (one per calendar day, the
`DatetimeIndex` entry as days since the 1970-01-01 epoch, and the close
price; the other OHLCV columns are never read by `engineer` and are
carried through unchanged).  Each derived dataframe column becomes a
function from the row position `t` to an `FVal` cell. -/

/-- One cleaned input row as handed to `FeatureEngineering.engineer`:
its `DatetimeIndex` value (days since 1970-01-01) and close price. -/
structure PriceRow where
  date : ℤ
  close : ℚ
deriving DecidableEq

/-- The `close` column: a valid position holds the (finite) close
price; reads past the end of the series are NaN.  This makes shifted
reads (`shift`, `pct_change(periods=...)`) model pandas' NaN padding. -/
def closeAt (s : List PriceRow) (t : ℕ) : FVal :=
  match s.get? t with
  | some r => .num r.close
  | none => .nan

/-- The `FeatureEngineering` object: its three window parameters
(`short`, `long`, `rsi`, defaults 5 / 20 / 14). -/
structure FeatureEngineering where
  short : ℕ
  long : ℕ
  rsi : ℕ
deriving DecidableEq

/-- `pct_change` column (lines 31-34): `df[col].pct_change() * 100`,
i.e. `(close[t] / close[t-1] - 1) * 100`, NaN at the first row. -/
def pctChangeCol (s : List PriceRow) (t : ℕ) : FVal :=
  if t = 0 then .nan
  else (closeAt s t / closeAt s (t - 1) - .num 1) * .num 100

/-- `sma_<w>` column (lines 36-40): `df[col].rolling(w).mean()`. -/
def smaCol (s : List PriceRow) (w t : ℕ) : FVal :=
  rollingMean (closeAt s) w t

/-- The recurrence of `ewm(span, adjust=False).mean()` after the first
value: `y[t] = (1 - a) * y[t-1] + a * x[t]`. -/
def ewmRun (a : ℚ) (prev : ℚ) : List ℚ → List ℚ
  | [] => []
  | x :: xs =>
      let y := (1 - a) * prev + a * x
      y :: ewmRun a y xs

/-- `series.ewm(span=span, adjust=False).mean()` on a NaN-free series:
warm-started at the first value, smoothing factor `a = 2 / (span + 1)`. -/
def ewmMean (span : ℕ) (xs : List ℚ) : List ℚ :=
  match xs with
  | [] => []
  | x :: rest => x :: ewmRun (2 / ((span : ℚ) + 1)) x rest

/-- The close prices of the series as a rational list. -/
def closes (s : List PriceRow) : List ℚ := s.map (fun r => r.close)

/-- Read position `t` of a NaN-free rational column. -/
def qListAt (l : List ℚ) (t : ℕ) : FVal :=
  match l.get? t with
  | some q => .num q
  | none => .nan

/-- `ema_<span>` column (lines 42-46): `df[col].ewm(span=span,
adjust=False).mean()`. -/
def emaCol (s : List PriceRow) (span t : ℕ) : FVal :=
  qListAt (ewmMean span (closes s)) t

/-- `delta = df[col].diff()` inside `rsi_simple` (line 51). -/
def deltaCol (s : List PriceRow) (t : ℕ) : FVal :=
  if t = 0 then .nan else closeAt s t - closeAt s (t - 1)

/-- `up = delta.clip(lower=0).rolling(period).mean()` (line 52). -/
def upAvg (s : List PriceRow) (p t : ℕ) : FVal :=
  rollingMean (fun u => FVal.clip_lower0 (deltaCol s u)) p t

/-- `down = -delta.clip(upper=0).rolling(period).mean()` (line 53);
the unary minus applies to the whole rolling mean. -/
def downAvg (s : List PriceRow) (p t : ℕ) : FVal :=
  -(rollingMean (fun u => FVal.clip_upper0 (deltaCol s u)) p t)

/-- `rs = up / down` (line 54), with IEEE division. -/
def rsCol (s : List PriceRow) (p t : ℕ) : FVal :=
  upAvg s p t / downAvg s p t

/-- `rsi` column (line 55): `100 - (100 / (1 + rs))`. -/
def rsiCol (s : List PriceRow) (p t : ℕ) : FVal :=
  .num 100 - .num 100 / (.num 1 + rsCol s p t)

/-- `macd` column (lines 58-62): `ewm(span=12) - ewm(span=26)` of the
close, with the fixed spans of the source. -/
def macdList (s : List PriceRow) : List ℚ :=
  List.zipWith (fun a b => a - b) (ewmMean 12 (closes s)) (ewmMean 26 (closes s))

/-- `macd_signal` column (line 63): `ewm(span=9)` of `macd`. -/
def macdSignalList (s : List PriceRow) : List ℚ :=
  ewmMean 9 (macdList s)

/-- `macd_hist` column (line 64): `macd - macd_signal`. -/
def macdHistList (s : List PriceRow) : List ℚ :=
  List.zipWith (fun a b => a - b) (macdList s) (macdSignalList s)

/-- `lag_i` column (lines 67-71): `df["pct_change"].shift(i)`, NaN
padding the first `i` positions. -/
def lagCol (s : List PriceRow) (i t : ℕ) : FVal :=
  if t < i then .nan else pctChangeCol s (t - i)

/-- `dow` column (line 77): `df.index.dayofweek`, Monday = 0.  The
epoch day 0 (1970-01-01) was a Thursday, hence the offset 3. -/
def dowCol (s : List PriceRow) (t : ℕ) : FVal :=
  match s.get? t with
  | some r => .num (((r.date + 3).emod 7 : ℤ) : ℚ)
  | none => .nan

/-- Gregorian month (1-12) of an epoch day count, by the standard
civil-from-days algorithm (floor divisions throughout). -/
def civilMonth (z : ℤ) : ℤ :=
  let z2 := z + 719468
  let era := z2.fdiv 146097
  let doe := z2 - era * 146097
  let yoe := (doe - doe.fdiv 1460 + doe.fdiv 36524 - doe.fdiv 146096).fdiv 365
  let doy := doe - (365 * yoe + yoe.fdiv 4 - yoe.fdiv 100)
  let mp := (5 * doy + 2).fdiv 153
  if mp < 10 then mp + 3 else mp - 9

/-- `month` column (line 78): `df.index.month`. -/
def monthCol (s : List PriceRow) (t : ℕ) : FVal :=
  match s.get? t with
  | some r => .num ((civilMonth r.date : ℤ) : ℚ)
  | none => .nan

/-- `future_return` column (line 83):
`df[col].pct_change(periods=shift).shift(-shift) * 100`, which at
position `t` is `(close[t+shift] / close[t] - 1) * 100` when the row
`t + shift` exists and NaN otherwise (the NaN read of `closeAt` past
the end propagates, exactly as the negative `shift` pads with NaN). -/
def futureReturnCol (s : List PriceRow) (shift t : ℕ) : FVal :=
  (closeAt s (t + shift) / closeAt s t - .num 1) * .num 100

/-- `price_up` column (line 84): `(future_return > 0).astype(float)`;
the comparison of NaN with 0 is false, so a missing future return
yields 0.0, never NaN. -/
def priceUpCol (s : List PriceRow) (shift t : ℕ) : FVal :=
  if FVal.lt (.num 0) (futureReturnCol s shift t) then .num 1 else .num 0

/-- All derived cells of row `t` of `engineer(df, include_target=True,
lags)` (lines 87-99; `add_targets` is called with its default
`shift=1`).  The original input columns are never NaN after cleaning
and are therefore not listed. -/
def engineerCols (fe : FeatureEngineering) (lags : ℕ) (s : List PriceRow) (t : ℕ) :
    List FVal :=
  [pctChangeCol s t,
   smaCol s fe.short t, smaCol s fe.long t,
   emaCol s fe.short t, emaCol s fe.long t,
   rsiCol s fe.rsi t,
   qListAt (macdList s) t, qListAt (macdSignalList s) t, qListAt (macdHistList s) t]
  ++ (List.range lags).map (fun i => lagCol s (i + 1) t)
  ++ [dowCol s t, monthCol s t,
      futureReturnCol s 1 t, priceUpCol s 1 t]

/-- Row `t` survives `dropna()` iff none of its engineered cells is
NaN. -/
def rowComplete (fe : FeatureEngineering) (lags : ℕ) (s : List PriceRow) (t : ℕ) :
    Bool :=
  (engineerCols fe lags s t).all (fun v => !v.isNan)

/-- The positions kept by `DataPrep.engineer`'s `dropna()` step
(src/feature_engineering.py line 136), in their original order. -/
def completeRows (fe : FeatureEngineering) (lags : ℕ) (s : List PriceRow) : List ℕ :=
  (List.range s.length).filter (fun t => rowComplete fe lags s t)

/-! ### Model of src/feature_engineering.py, class DataPrep (load_and_filter)

`load_and_filter` masks with
`df["stock_index"].astype(str).str.contains(pattern, case=False, na=False)`.
pandas `str.contains` defaults to `regex=True`, so the pattern is a
case-insensitive regular expression searched anywhere in the label, via
Python `re.search`.  Strings are modelled as lists of character codes,
and the regex fragment modelled is: literal characters and the
metacharacter `.` (code 46), which matches any single character.  A
pattern is inside this fragment exactly when it uses no OTHER Python
regex metacharacter — no quantifier, anchor, group, class, escape or
alternation — which `patternInScope` below makes precise; on such
patterns this model coincides with Python `re`.  Patterns outside the
fragment follow full `re` semantics (quantifiers repeat, a lone
parenthesis raises `re.error`, ...) and are outside this model: every
theorem about `load_and_filter` carries `patternInScope` as a
hypothesis, so nothing is asserted about them. -/

/-- One token of a compiled pattern: a literal character code, or the
dot metacharacter. -/
inductive RTok where
  | ch : ℕ → RTok
  | dot : RTok
deriving DecidableEq

/-- ASCII lowercasing of a character code, the effect of matching with
`case=False` (`re.IGNORECASE`) on the ASCII labels of the dataset. -/
def asciiLower (c : ℕ) : ℕ :=
  if 65 ≤ c ∧ c ≤ 90 then c + 32 else c

/-- Compile a pattern string of the modelled fragment: code 46 is the
`.` metacharacter, every other character is a literal.  This is the
compilation Python `re` performs on a pattern satisfying
`patternInScope`; for other patterns `re` compiles differently (or
raises), so `compilePattern` is only used under that hypothesis. -/
def compilePattern (p : List ℕ) : List RTok :=
  p.map (fun c => if c = 46 then RTok.dot else RTok.ch c)

/-- The character codes of the Python regex metacharacters other than
the dot: caret 94, dollar 36, star 42, plus 43, question mark 63,
opening and closing curly bracket 123 and 125, opening and closing
square bracket 91 and 93, backslash 92, vertical bar 124, opening and
closing parenthesis 40 and 41. -/
def regexMetaOther : List ℕ :=
  [94, 36, 42, 43, 63, 123, 125, 91, 93, 92, 124, 40, 41]

/-- The pattern lies in the modelled regex fragment: it contains no
Python regex metacharacter other than `.`.  Within this fragment,
`compilePattern` + `regexSearchCI` agree with Python
`re.search(pattern, label, re.IGNORECASE)`. -/
def patternInScope (pat : List ℕ) : Bool :=
  pat.all (fun c => !(regexMetaOther.contains c))

/-- Does one token match one character (case-insensitively)? -/
def tokMatches : RTok → ℕ → Bool
  | .dot, _ => true
  | .ch a, c => asciiLower a == asciiLower c

/-- Does the whole pattern match a prefix of the string? -/
def matchHere : List RTok → List ℕ → Bool
  | [], _ => true
  | _ :: _, [] => false
  | tok :: p, c :: s => tokMatches tok c && matchHere p s

/-- Python `re.search` with `re.IGNORECASE`: does the pattern match
starting at some position of the string? -/
def regexSearchCI (p : List RTok) : List ℕ → Bool
  | [] => matchHere p []
  | c :: rest => matchHere p (c :: rest) || regexSearchCI p rest

/-- One row of the loaded multi-instrument table: the instrument label
(as character codes) and its close price (the other columns are never
read by `load_and_filter`). -/
structure IndexRow where
  stock_index : List ℕ
  close : ℚ
deriving DecidableEq

/-- The `SystemExit` raised by `load_and_filter` when the mask keeps no
row. -/
inductive DataPrepError where
  | noMatchingRows
deriving DecidableEq

/-- `DataPrep.load_and_filter` (src/feature_engineering.py lines
119-131), applied to the table produced by the loader: keep the rows
whose label the (case-insensitive, regex) pattern search matches, and
fail when no row is kept.  Faithful to the source for patterns
satisfying `patternInScope`; the theorems below are stated under that
hypothesis. -/
def load_and_filter (rows : List IndexRow) (pat : List ℕ) :
    Except DataPrepError (List IndexRow) :=
  let kept := rows.filter (fun r => regexSearchCI (compilePattern pat) r.stock_index)
  if kept.isEmpty then .error .noMatchingRows else .ok kept

/-- Does `s` start with `p` (exact character codes)? -/
def listStartsWith : List ℕ → List ℕ → Bool
  | [], _ => true
  | _ :: _, [] => false
  | a :: p, b :: s => a == b && listStartsWith p s

/-- Does `p` occur contiguously somewhere in `s`? -/
def listContainsSeq (p : List ℕ) : List ℕ → Bool
  | [] => listStartsWith p []
  | c :: rest => listStartsWith p (c :: rest) || listContainsSeq p rest

/-- The reading of the filter asserted by the claim (and spec): the
pattern occurs in the label as a case-insensitive literal substring. -/
def substrContainsCI (pat s : List ℕ) : Bool :=
  listContainsSeq (pat.map asciiLower) (s.map asciiLower)

/-! ### Model of src/models/base.py, BaseTrainer.evaluate

A fitted sklearn pipeline is abstracted to its two prediction
capabilities: `predict`, and `predict_proba` when the classifier
supports probability estimates (the source wraps the `predict_proba`
call in try/except and treats a raising estimator as unsupported, which
is modelled by `predictProba = none`).  Labels are the two classes of
the binary target. -/

/-- A fitted pipeline: hard predictions always, probability scores for
the positive class when supported. -/
structure FittedPipeline (α : Type) where
  predict : List α → List Bool
  predictProba : Option (List α → List ℚ)

/-- One class row of sklearn's `classification_report` (precision,
recall, f1, support; sklearn reports 0 for an undefined ratio). -/
structure ReportRow where
  precisionScore : ℚ
  recallScore : ℚ
  f1 : ℚ
  support : ℕ
deriving DecidableEq

/-- The metrics dictionary built by `evaluate` (lines 62-67). -/
structure EvalMetrics where
  accuracy : ℚ
  classification_report : List ReportRow
  confusion_matrix : (ℕ × ℕ) × (ℕ × ℕ)
  roc_auc : Option ℚ
deriving DecidableEq

/-- Count of test rows with true label `a` predicted as `b`. -/
def countPairs (y yp : List Bool) (a b : Bool) : ℕ :=
  ((y.zip yp).filter (fun q => q.1 == a && q.2 == b)).length

/-- sklearn `accuracy_score`: fraction of positions where prediction
equals label. -/
def accuracyScore (y yp : List Bool) : ℚ :=
  (((y.zip yp).filter (fun q => q.1 == q.2)).length : ℚ) / (y.length : ℚ)

/-- The per-class row of `classification_report`. -/
def reportRow (y yp : List Bool) (cls : Bool) : ReportRow :=
  let tp := countPairs y yp cls cls
  let fp := countPairs y yp (!cls) cls
  let fnc := countPairs y yp cls (!cls)
  let prec : ℚ := if tp + fp = 0 then 0 else (tp : ℚ) / ((tp : ℚ) + (fp : ℚ))
  let rcl : ℚ := if tp + fnc = 0 then 0 else (tp : ℚ) / ((tp : ℚ) + (fnc : ℚ))
  { precisionScore := prec
    recallScore := rcl
    f1 := if prec + rcl = 0 then 0 else 2 * prec * rcl / (prec + rcl)
    support := (y.filter (fun v => v == cls)).length }

/-- sklearn `roc_auc_score` for binary labels: the probability (over
positive/negative pairs) that a positive scores above a negative, ties
counting one half. -/
def aucScore (y : List Bool) (proba : List ℚ) : ℚ :=
  let pairs := y.zip proba
  let pos := (pairs.filter (fun q => q.1)).map (fun q => q.2)
  let neg := (pairs.filter (fun q => !q.1)).map (fun q => q.2)
  (pos.map (fun u =>
      ((neg.filter (fun v => decide (v < u))).length : ℚ)
        + ((neg.filter (fun v => v == u)).length : ℚ) / 2)).sum
    / ((pos.length : ℚ) * (neg.length : ℚ))

/-- `BaseTrainer.evaluate` (src/models/base.py lines 54-69): predict,
attempt `predict_proba` (exceptions giving `None`), and assemble the
metrics; `roc_auc` is a number exactly under the source's guard
`y_proba is not None and len(set(y_test)) > 1`, and is `None`
otherwise. -/
def BaseTrainer.evaluate {α : Type} (pipeline : FittedPipeline α)
    (X_test : List α) (y_test : List Bool) : EvalMetrics :=
  let y_pred := pipeline.predict X_test
  let y_proba := pipeline.predictProba.map (fun f => f X_test)
  { accuracy := accuracyScore y_test y_pred
    classification_report := [reportRow y_test y_pred false, reportRow y_test y_pred true]
    confusion_matrix :=
      ((countPairs y_test y_pred false false, countPairs y_test y_pred false true),
       (countPairs y_test y_pred true false, countPairs y_test y_pred true true))
    roc_auc :=
      match y_proba with
      | some p => if 1 < y_test.dedup.length then some (aucScore y_test p) else none
      | none => none }

/-! ### Concrete instances used by counterexamples and witnesses -/

/-- A 3-row sorted dataframe (dates 0,1,2). -/
def exDF3 : PandasDF := ⟨true, [⟨0, 10⟩, ⟨1, 11⟩, ⟨2, 12⟩]⟩

/-- A 2-row sorted dataframe (dates 0,1). -/
def exDF2 : PandasDF := ⟨true, [⟨0, 10⟩, ⟨1, 11⟩]⟩

/-- A 2-row dataframe with a `DatetimeIndex` whose dates are NOT in
ascending order (5 before 3). -/
def exDFUnsorted : PandasDF := ⟨true, [⟨5, 10⟩, ⟨3, 11⟩]⟩

/-- A strictly increasing 3-row price series (closes 1,2,3). -/
def exInc3 : List PriceRow := [⟨0, 1⟩, ⟨1, 2⟩, ⟨2, 3⟩]

/-- A constant 5-row price series (close 1 throughout). -/
def exConst5 : List PriceRow := [⟨0, 1⟩, ⟨1, 1⟩, ⟨2, 1⟩, ⟨3, 1⟩, ⟨4, 1⟩]

/-- A strictly increasing 6-row price series (closes 1..6). -/
def exInc6 : List PriceRow := [⟨0, 1⟩, ⟨1, 2⟩, ⟨2, 3⟩, ⟨3, 4⟩, ⟨4, 5⟩, ⟨5, 6⟩]

/-- A small window configuration: short 2, long 3, rsi period 2. -/
def exFE : FeatureEngineering := ⟨2, 3, 2⟩

/-- A 2-row series with the close rising from 10 to 12. -/
def exPair2 : List PriceRow := [⟨0, 10⟩, ⟨1, 12⟩]

/-- The label NASDAQ as character codes. -/
def exNasdaqRow : IndexRow := ⟨[78, 65, 83, 68, 65, 81], 1⟩

/-- The pattern string with a `.` metacharacter in second position
(codes of the characters N . S D A Q). -/
def exPatDot : List ℕ := [78, 46, 83, 68, 65, 81]

/-- The literal one-character pattern Q (its code). -/
def exPatQ : List ℕ := [81]

/-- The literal one-character pattern X (its code), matching no label
of `exNasdaqRow`. -/
def exPatX : List ℕ := [88]

/-- A fitted pipeline over ℕ feature rows that supports probability
estimates. -/
def exPipelineProba : FittedPipeline ℕ :=
  ⟨fun xs => xs.map (fun _ => true), some (fun xs => xs.map (fun _ => (1 : ℚ) / 2))⟩




/-! ## Theorems -/

/-! ### Helper lemmas: the splitter -/

theorem pyInt_eq_floor (q : ℚ) (h : 0 ≤ q) : pyInt q = ⌊q⌋ := by
  unfold pyInt
  rw [if_pos h]
  rfl

theorem validate_input_ok_iff (df : PandasDF) :
    TimeSeriesSplit.validate_input df = .ok () ↔
      df.rows ≠ [] ∧ df.hasDatetimeIndex = true ∧ 2 ≤ df.rows.length := by
  unfold TimeSeriesSplit.validate_input
  by_cases h1 : df.rows.isEmpty
  · simp_all [List.isEmpty_iff]
  · by_cases h2 : df.hasDatetimeIndex
    · by_cases h3 : df.rows.length < 2
      · simp_all [List.isEmpty_iff]
      · simp_all [List.isEmpty_iff]
    · simp_all [List.isEmpty_iff]

theorem split_ok_inv (self : TimeSeriesSplit) (df : PandasDF)
    (train test : List TSRow)
    (h : self.split df = .ok (train, test)) :
    TimeSeriesSplit.validate_input df = .ok () ∧
      train = df.rows.take (pyInt ((df.rows.length : ℚ) * (1 - self.test_size))).toNat ∧
      test = df.rows.drop (pyInt ((df.rows.length : ℚ) * (1 - self.test_size))).toNat := by
  unfold TimeSeriesSplit.split at h
  cases hv : TimeSeriesSplit.validate_input df with
  | error e => rw [hv] at h; exact absurd h (by simp)
  | ok u =>
      cases u
      rw [hv] at h
      simp only [Except.ok.injEq, Prod.mk.injEq] at h
      exact ⟨rfl, h.1.symm, h.2.symm⟩

theorem split_eq_of_validate (self : TimeSeriesSplit) (df : PandasDF)
    (h : TimeSeriesSplit.validate_input df = .ok ()) :
    self.split df =
      .ok (df.rows.take (pyInt ((df.rows.length : ℚ) * (1 - self.test_size))).toNat,
           df.rows.drop (pyInt ((df.rows.length : ℚ) * (1 - self.test_size))).toNat) := by
  unfold TimeSeriesSplit.split
  rw [h]

theorem chain'_split_link {α : Type _} (R : α → α → Prop) (l : List α) (k : ℕ) (a b : α)
    (h : List.Chain' R l) (ha : (l.take k).getLast? = some a)
    (hb : (l.drop k).head? = some b) : R a b := by
  rw [← List.take_append_drop k l] at h
  rcases List.chain'_append.mp h with ⟨-, -, hlink⟩
  exact hlink a ha b hb

/-! ### Claim C1 -/

/-- C1: for every input series sorted strictly ascending by date (which
is what sorted-with-pairwise-distinct-dates means) and every valid
`test_size`, whenever `TimeSeriesSplit.split` returns a pair and both
partitions are non-empty, the last date of the train partition is
strictly below the first date of the test partition: no training row is
dated at or after any test row. -/
theorem split_chronological_separation
    (f : ℚ) (df : PandasDF) (train test : List TSRow) (a b : TSRow)
    (hf0 : 0 < f) (hf1 : f < 1)
    (hsorted : List.Chain' (fun x y : TSRow => x.date < y.date) df.rows)
    (hsplit : TimeSeriesSplit.split ⟨f⟩ df = .ok (train, test))
    (ha : train.getLast? = some a) (hb : test.head? = some b) :
    a.date < b.date := by
  obtain ⟨-, htr, hte⟩ := split_ok_inv ⟨f⟩ df train test hsplit
  subst htr hte
  exact chain'_split_link _ df.rows _ a b hsorted ha hb

/-- Witness for C1 at `exDF3` with `test_size = 1/3`: the boundary pair
of the returned split is dated 1 and 2. -/
theorem split_chronological_separation_witness : (1 : ℤ) < 2 := by
  have hval : TimeSeriesSplit.validate_input exDF3 = .ok () := by
    rw [validate_input_ok_iff]
    refine ⟨by simp [exDF3], by simp [exDF3], by simp [exDF3]⟩
  have hq : ((exDF3.rows.length : ℚ) * (1 - (1/3 : ℚ))) = 2 := by
    norm_num [exDF3]
  have hcut : (pyInt ((exDF3.rows.length : ℚ) * (1 - (1/3 : ℚ)))).toNat = 2 := by
    rw [hq, pyInt_eq_floor _ (by norm_num)]
    simp
  have hsp : TimeSeriesSplit.split ⟨1/3⟩ exDF3 =
      .ok ([⟨0, 10⟩, ⟨1, 11⟩], [⟨2, 12⟩]) := by
    rw [split_eq_of_validate ⟨1/3⟩ exDF3 hval]
    show Except.ok
        (exDF3.rows.take (pyInt ((exDF3.rows.length : ℚ) * (1 - (1/3 : ℚ)))).toNat,
         exDF3.rows.drop (pyInt ((exDF3.rows.length : ℚ) * (1 - (1/3 : ℚ)))).toNat) = _
    rw [hcut]
    rfl
  exact split_chronological_separation (1/3) exDF3 [⟨0, 10⟩, ⟨1, 11⟩] [⟨2, 12⟩]
    ⟨1, 11⟩ ⟨2, 12⟩ (by norm_num) (by norm_num)
    (by simp [exDF3, List.chain'_cons]) hsp (by simp) (by simp)

/-! ### Claim C2 -/

/-- C2: for every `test_size` in (0,1) and valid input series of length
at least 2, `TimeSeriesSplit.split` succeeds, and any pair it returns
partitions the input exactly: the lengths sum to the input length and
the concatenation (train followed by test) is the input list itself, so
no row is duplicated, dropped, reordered or modified. -/
theorem split_concat_exact
    (f : ℚ) (df : PandasDF)
    (hf0 : 0 < f) (hf1 : f < 1)
    (hdi : df.hasDatetimeIndex = true) (hn : 2 ≤ df.rows.length) :
    (∃ train test, TimeSeriesSplit.split ⟨f⟩ df = .ok (train, test)) ∧
      ∀ train test, TimeSeriesSplit.split ⟨f⟩ df = .ok (train, test) →
        train.length + test.length = df.rows.length ∧ train ++ test = df.rows := by
  have hval : TimeSeriesSplit.validate_input df = .ok () := by
    rw [validate_input_ok_iff]
    refine ⟨?_, hdi, hn⟩
    intro hnil
    rw [hnil] at hn
    simp at hn
  constructor
  · exact ⟨_, _, split_eq_of_validate ⟨f⟩ df hval⟩
  · intro train test hsplit
    obtain ⟨-, htr, hte⟩ := split_ok_inv ⟨f⟩ df train test hsplit
    subst htr hte
    constructor
    · rw [List.length_take, List.length_drop]
      omega
    · exact List.take_append_drop _ _

/-- Witness for C2 at `exDF3` with `test_size = 1/3`. -/
theorem split_concat_exact_witness :
    ∃ train test, TimeSeriesSplit.split ⟨(1 : ℚ)/3⟩ exDF3 = .ok (train, test) :=
  (split_concat_exact (1/3) exDF3 (by norm_num) (by norm_num)
    (by simp [exDF3]) (by simp [exDF3])).1

/-! ### Claim C3 -/

/-- Counterexample to C3: with the valid `test_size = 9/10` and the
2-row dataframe `exDF2`, `split` computes the cutoff
`int(2 * (1 - 9/10)) = 0` and returns an EMPTY train partition: the
cutoff is not clamped into `[1, n-1]` and the train partition is not
non-empty, contrary to the claim. -/
theorem split_no_clamp_counterexample :
    (0 : ℚ) < 9/10 ∧ (9/10 : ℚ) < 1 ∧ exDF2.rows.length = 2 ∧
      TimeSeriesSplit.split ⟨9/10⟩ exDF2 = .ok ([], exDF2.rows) := by
  refine ⟨by norm_num, by norm_num, by simp [exDF2], ?_⟩
  have hval : TimeSeriesSplit.validate_input exDF2 = .ok () := by
    rw [validate_input_ok_iff]
    refine ⟨by simp [exDF2], by simp [exDF2], by simp [exDF2]⟩
  have hq : ((exDF2.rows.length : ℚ) * (1 - (9/10 : ℚ))) = 1/5 := by
    norm_num [exDF2]
  have hcut : (pyInt ((exDF2.rows.length : ℚ) * (1 - (9/10 : ℚ)))).toNat = 0 := by
    rw [hq, pyInt_eq_floor _ (by norm_num)]
    rw [show ⌊(1/5 : ℚ)⌋ = 0 by
      rw [Int.floor_eq_iff] <;> norm_num]
    rfl
  rw [split_eq_of_validate ⟨9/10⟩ exDF2 hval]
  show Except.ok
      (exDF2.rows.take (pyInt ((exDF2.rows.length : ℚ) * (1 - (9/10 : ℚ)))).toNat,
       exDF2.rows.drop (pyInt ((exDF2.rows.length : ℚ) * (1 - (9/10 : ℚ)))).toNat) = _
  rw [hcut]
  rfl

/-- C3 as amended: the cutoff actually used is
`int(n * (1 - test_size))` with NO clamping; the train partition is the
prefix of that length and the test partition the matching suffix, the
train partition is non-empty exactly when the cutoff is at least 1, and
the test partition is non-empty exactly when the cutoff is below n.
For extreme fractions the cutoff can leave `[1, n-1]` and one partition
is then empty. -/
theorem split_cutoff_unclamped
    (f : ℚ) (df : PandasDF) (train test : List TSRow) (cut : ℕ)
    (hf0 : 0 < f) (hf1 : f < 1)
    (hcut : cut = (pyInt ((df.rows.length : ℚ) * (1 - f))).toNat)
    (hsplit : TimeSeriesSplit.split ⟨f⟩ df = .ok (train, test)) :
    train = df.rows.take cut ∧ test = df.rows.drop cut ∧
      (train ≠ [] ↔ 1 ≤ cut) ∧ (test ≠ [] ↔ cut < df.rows.length) := by
  obtain ⟨hok, htr, hte⟩ := split_ok_inv ⟨f⟩ df train test hsplit
  have hne : df.rows ≠ [] := ((validate_input_ok_iff df).mp hok).1
  subst htr hte
  rw [← hcut]
  refine ⟨rfl, rfl, ?_, ?_⟩
  · constructor
    · intro h
      rcases Nat.eq_zero_or_pos cut with h0 | h1
      · rw [h0] at h
        simp at h
      · exact h1
    · intro h1 h
      have := congrArg List.length h
      rw [List.length_take] at this
      simp at this
      rcases this with h' | h'
      · omega
      · exact hne h'
  · constructor
    · intro h
      by_contra hge
      push_neg at hge
      exact h (List.drop_eq_nil_of_le hge)
    · intro hlt h
      have := congrArg List.length h
      rw [List.length_drop] at this
      simp at this
      omega

/-- Witness for C3 as amended, at `exDF3` with `test_size = 1/3`
(cutoff 2): the train partition is the 2-row prefix, hence non-empty. -/
theorem split_cutoff_unclamped_witness : exDF3.rows.take 2 ≠ [] := by
  have hval : TimeSeriesSplit.validate_input exDF3 = .ok () := by
    rw [validate_input_ok_iff]
    refine ⟨by simp [exDF3], by simp [exDF3], by simp [exDF3]⟩
  have hq : ((exDF3.rows.length : ℚ) * (1 - (1/3 : ℚ))) = 2 := by
    norm_num [exDF3]
  have hcut : (2 : ℕ) = (pyInt ((exDF3.rows.length : ℚ) * (1 - (1/3 : ℚ)))).toNat := by
    rw [hq, pyInt_eq_floor _ (by norm_num)]
    simp
  have hsp : TimeSeriesSplit.split ⟨1/3⟩ exDF3 =
      .ok (exDF3.rows.take 2, exDF3.rows.drop 2) := by
    rw [split_eq_of_validate ⟨1/3⟩ exDF3 hval]
    show Except.ok
        (exDF3.rows.take (pyInt ((exDF3.rows.length : ℚ) * (1 - (1/3 : ℚ)))).toNat,
         exDF3.rows.drop (pyInt ((exDF3.rows.length : ℚ) * (1 - (1/3 : ℚ)))).toNat) = _
    rw [← hcut]
  exact (split_cutoff_unclamped (1/3) exDF3 (exDF3.rows.take 2) (exDF3.rows.drop 2) 2
    (by norm_num) (by norm_num) hcut hsp).2.2.1.mpr (by norm_num)

/-! ### Claim C4 -/

/-- Counterexample to C4: `exDFUnsorted` has 2 rows and a
`DatetimeIndex`, but its dates are NOT sorted ascending (5 before 3);
the claim says `split` must raise `InvalidInput` on it, yet `split`
returns a split (with the out-of-order rows split across the two
partitions).  `_validate_input` never inspects the ordering. -/
theorem split_unsorted_accepted_counterexample :
    strictlySortedByDate exDFUnsorted.rows = false ∧
      exDFUnsorted.hasDatetimeIndex = true ∧
      exDFUnsorted.rows.length = 2 ∧
      TimeSeriesSplit.split ⟨1/2⟩ exDFUnsorted = .ok ([⟨5, 10⟩], [⟨3, 11⟩]) := by
  refine ⟨by decide, by decide, by decide, ?_⟩
  have hval : TimeSeriesSplit.validate_input exDFUnsorted = .ok () := by
    rw [validate_input_ok_iff]
    refine ⟨by simp [exDFUnsorted], by simp [exDFUnsorted], by simp [exDFUnsorted]⟩
  have hq : ((exDFUnsorted.rows.length : ℚ) * (1 - (1/2 : ℚ))) = 1 := by
    norm_num [exDFUnsorted]
  have hcut : (pyInt ((exDFUnsorted.rows.length : ℚ) * (1 - (1/2 : ℚ)))).toNat = 1 := by
    rw [hq, pyInt_eq_floor _ (by norm_num)]
    simp
  rw [split_eq_of_validate ⟨1/2⟩ exDFUnsorted hval]
  show Except.ok
      (exDFUnsorted.rows.take
        (pyInt ((exDFUnsorted.rows.length : ℚ) * (1 - (1/2 : ℚ)))).toNat,
       exDFUnsorted.rows.drop
        (pyInt ((exDFUnsorted.rows.length : ℚ) * (1 - (1/2 : ℚ)))).toNat) = _
  rw [hcut]
  rfl

/-- C4 as amended: `split` fails exactly when the series is empty, the
index is not temporal (not a `DatetimeIndex`), or there are fewer than
2 rows.  The ordering of the dates is NOT validated: it is only a
documented precondition. -/
theorem split_error_characterization (ts : TimeSeriesSplit) (df : PandasDF) :
    (TimeSeriesSplit.split ts df).toOption = none ↔
      (df.rows = [] ∨ df.hasDatetimeIndex = false ∨ df.rows.length < 2) := by
  have hiff := validate_input_ok_iff df
  unfold TimeSeriesSplit.split
  cases hv : TimeSeriesSplit.validate_input df with
  | error e =>
      rw [hv] at hiff
      constructor
      · intro _
        by_contra hc
        push_neg at hc
        obtain ⟨h1, h2, h3⟩ := hc
        exact absurd (hiff.mpr ⟨h1, by simpa using h2, by omega⟩) (by simp)
      · intro _
        rfl
  | ok u =>
      cases u
      rw [hv] at hiff
      obtain ⟨h1, h2, h3⟩ := hiff.mp rfl
      constructor
      · intro h
        exact absurd h (by simp [Except.toOption])
      · rintro (hc | hc | hc)
        · exact absurd hc h1
        · rw [h2] at hc
          simp at hc
        · omega

/-! ### Helper lemmas: FVal arithmetic -/

theorem FVal.num_add_num (a b : ℚ) : FVal.num a + FVal.num b = FVal.num (a + b) := rfl

theorem FVal.add_nan (x : FVal) : x + FVal.nan = FVal.nan := by cases x <;> rfl

theorem FVal.nan_add (x : FVal) : FVal.nan + x = FVal.nan := by cases x <;> rfl

theorem FVal.neg_num (a : ℚ) : -(FVal.num a) = FVal.num (-a) := rfl

theorem FVal.neg_nan : -(FVal.nan) = FVal.nan := rfl

theorem FVal.num_sub_num (a b : ℚ) : FVal.num a - FVal.num b = FVal.num (a - b) := by
  show FVal.add (FVal.num a) (FVal.neg (FVal.num b)) = _
  rw [show FVal.neg (FVal.num b) = FVal.num (-b) from rfl]
  rw [show FVal.add (FVal.num a) (FVal.num (-b)) = FVal.num (a + -b) from rfl]
  rw [← sub_eq_add_neg]

theorem FVal.sub_nan (x : FVal) : x - FVal.nan = FVal.nan := by cases x <;> rfl

theorem FVal.nan_sub (x : FVal) : FVal.nan - x = FVal.nan := by cases x <;> rfl

theorem FVal.num_mul_num (a b : ℚ) : FVal.num a * FVal.num b = FVal.num (a * b) := rfl

theorem FVal.mul_nan (x : FVal) : x * FVal.nan = FVal.nan := by cases x <;> rfl

theorem FVal.nan_mul (x : FVal) : FVal.nan * x = FVal.nan := by cases x <;> rfl

theorem FVal.div_nan (x : FVal) : x / FVal.nan = FVal.nan := by cases x <;> rfl

theorem FVal.nan_div (x : FVal) : FVal.nan / x = FVal.nan := by cases x <;> rfl

theorem FVal.num_div_num (a b : ℚ) (hb : b ≠ 0) :
    FVal.num a / FVal.num b = FVal.num (a / b) := by
  show FVal.div _ _ = _
  simp [FVal.div, hb]

theorem FVal.num_div_num_zero_pos (a : ℚ) (ha : 0 < a) :
    FVal.num a / FVal.num 0 = FVal.inf := by
  show FVal.div _ _ = _
  simp [FVal.div, ha, ha.ne']

theorem FVal.zero_div_zero : FVal.num 0 / FVal.num 0 = FVal.nan := by
  show FVal.div _ _ = _
  simp [FVal.div]

theorem FVal.num_add_inf (a : ℚ) : FVal.num a + FVal.inf = FVal.inf := rfl

theorem FVal.num_div_inf (a : ℚ) : FVal.num a / FVal.inf = FVal.num 0 := rfl

theorem FVal.isNan_num (a : ℚ) : (FVal.num a).isNan = false := rfl

theorem FVal.isNan_nan : (FVal.nan).isNan = true := rfl

theorem FVal.isNan_eq_false_iff (x : FVal) : x.isNan = false ↔ x ≠ FVal.nan := by
  cases x <;> simp [FVal.isNan]

theorem FVal.lt_nan (x : FVal) : FVal.lt x FVal.nan = false := by cases x <;> rfl

theorem FVal.nan_lt (x : FVal) : FVal.lt FVal.nan x = false := by cases x <;> rfl

theorem FVal.num_lt_num (a b : ℚ) : FVal.lt (FVal.num a) (FVal.num b) = decide (a < b) := rfl

/-! ### Helper lemmas: sums and rolling means -/

theorem sumF_num (l : List FVal) (h : ∀ v ∈ l, ∃ q, v = FVal.num q) :
    ∃ q, sumF l = FVal.num q := by
  induction l with
  | nil => exact ⟨0, rfl⟩
  | cons x xs ih =>
      obtain ⟨q, hq⟩ := h x (by simp)
      obtain ⟨qs, hqs⟩ := ih (fun v hv => h v (by simp [hv]))
      refine ⟨q + qs, ?_⟩
      show FVal.add x (sumF xs) = _
      rw [hq, hqs]
      rfl

theorem sumF_num_nonneg (l : List FVal)
    (h : ∀ v ∈ l, ∃ q, v = FVal.num q ∧ 0 ≤ q) :
    ∃ q, sumF l = FVal.num q ∧ 0 ≤ q := by
  induction l with
  | nil => exact ⟨0, rfl, le_refl 0⟩
  | cons x xs ih =>
      obtain ⟨q, hq, hq0⟩ := h x (by simp)
      obtain ⟨qs, hqs, hqs0⟩ := ih (fun v hv => h v (by simp [hv]))
      refine ⟨q + qs, ?_, by positivity⟩
      show FVal.add x (sumF xs) = _
      rw [hq, hqs]
      rfl

theorem sumF_num_nonpos (l : List FVal)
    (h : ∀ v ∈ l, ∃ q, v = FVal.num q ∧ q ≤ 0) :
    ∃ q, sumF l = FVal.num q ∧ q ≤ 0 := by
  induction l with
  | nil => exact ⟨0, rfl, le_refl 0⟩
  | cons x xs ih =>
      obtain ⟨q, hq, hq0⟩ := h x (by simp)
      obtain ⟨qs, hqs, hqs0⟩ := ih (fun v hv => h v (by simp [hv]))
      refine ⟨q + qs, ?_, by linarith⟩
      show FVal.add x (sumF xs) = _
      rw [hq, hqs]
      rfl

theorem sumF_nan (l : List FVal) (h : FVal.nan ∈ l) : sumF l = FVal.nan := by
  induction l with
  | nil => simp at h
  | cons x xs ih =>
      rcases List.mem_cons.mp h with hx | hxs
      · show FVal.add x (sumF xs) = _
        rw [← hx]
        exact FVal.nan_add _
      · show FVal.add x (sumF xs) = _
        rw [ih hxs]
        exact FVal.add_nan x

theorem rollingMean_nan_of_short (f : ℕ → FVal) (w t : ℕ) (h : w = 0 ∨ t + 1 < w) :
    rollingMean f w t = FVal.nan := by
  unfold rollingMean
  rw [if_pos h]

theorem rollingMean_num (f : ℕ → FVal) (w t : ℕ) (hw : 1 ≤ w) (hfull : w ≤ t + 1)
    (h : ∀ i < w, ∃ q, f (t - i) = FVal.num q) :
    ∃ q, rollingMean f w t = FVal.num q := by
  unfold rollingMean
  rw [if_neg (by omega)]
  obtain ⟨q, hq⟩ := sumF_num _ (by
    intro v hv
    rw [List.mem_map] at hv
    obtain ⟨i, hi, hfi⟩ := hv
    rw [List.mem_range] at hi
    obtain ⟨qi, hqi⟩ := h i hi
    exact ⟨qi, hfi ▸ hqi⟩)
  rw [hq, FVal.num_div_num _ _ (by positivity)]
  exact ⟨_, rfl⟩

theorem rollingMean_num_nonneg (f : ℕ → FVal) (w t : ℕ) (hw : 1 ≤ w) (hfull : w ≤ t + 1)
    (h : ∀ i < w, ∃ q, f (t - i) = FVal.num q ∧ 0 ≤ q) :
    ∃ q, rollingMean f w t = FVal.num q ∧ 0 ≤ q := by
  unfold rollingMean
  rw [if_neg (by omega)]
  obtain ⟨q, hq, hq0⟩ := sumF_num_nonneg _ (by
    intro v hv
    rw [List.mem_map] at hv
    obtain ⟨i, hi, hfi⟩ := hv
    rw [List.mem_range] at hi
    obtain ⟨qi, hqi, hqi0⟩ := h i hi
    exact ⟨qi, hfi ▸ hqi, hqi0⟩)
  rw [hq, FVal.num_div_num _ _ (by positivity)]
  refine ⟨_, rfl, by positivity⟩

theorem rollingMean_num_nonpos (f : ℕ → FVal) (w t : ℕ) (hw : 1 ≤ w) (hfull : w ≤ t + 1)
    (h : ∀ i < w, ∃ q, f (t - i) = FVal.num q ∧ q ≤ 0) :
    ∃ q, rollingMean f w t = FVal.num q ∧ q ≤ 0 := by
  unfold rollingMean
  rw [if_neg (by omega)]
  obtain ⟨q, hq, hq0⟩ := sumF_num_nonpos _ (by
    intro v hv
    rw [List.mem_map] at hv
    obtain ⟨i, hi, hfi⟩ := hv
    rw [List.mem_range] at hi
    obtain ⟨qi, hqi, hqi0⟩ := h i hi
    exact ⟨qi, hfi ▸ hqi, hqi0⟩)
  rw [hq, FVal.num_div_num _ _ (by positivity)]
  refine ⟨_, rfl, ?_⟩
  have hwpos : (0 : ℚ) < (w : ℚ) := by positivity
  exact div_nonpos_of_nonpos_of_nonneg hq0 (le_of_lt hwpos)

theorem rollingMean_nan_of_mem (f : ℕ → FVal) (w t i : ℕ) (hw : 1 ≤ w) (hfull : w ≤ t + 1)
    (hi : i < w) (hf : f (t - i) = FVal.nan) :
    rollingMean f w t = FVal.nan := by
  unfold rollingMean
  rw [if_neg (by omega)]
  rw [sumF_nan _ (by
    rw [List.mem_map]
    exact ⟨i, List.mem_range.mpr hi, hf⟩)]
  rfl

/-! ### Helper lemmas: the engineered columns -/

theorem closeAt_num (s : List PriceRow) (t : ℕ) (ht : t < s.length) :
    ∃ c, closeAt s t = FVal.num c := by
  unfold closeAt
  rw [List.get?_eq_get ht]
  exact ⟨_, rfl⟩

theorem closeAt_pos (s : List PriceRow) (t : ℕ)
    (hpos : ∀ r ∈ s, 0 < r.close) (ht : t < s.length) :
    ∃ c, closeAt s t = FVal.num c ∧ 0 < c := by
  unfold closeAt
  rw [List.get?_eq_get ht]
  exact ⟨_, rfl, hpos _ (s.get_mem _ _)⟩

theorem closeAt_nan (s : List PriceRow) (t : ℕ) (ht : s.length ≤ t) :
    closeAt s t = FVal.nan := by
  unfold closeAt
  rw [List.get?_eq_none.mpr ht]

theorem pctChangeCol_nan_zero (s : List PriceRow) : pctChangeCol s 0 = FVal.nan := by
  unfold pctChangeCol
  simp

theorem pctChangeCol_num (s : List PriceRow) (t : ℕ)
    (hpos : ∀ r ∈ s, 0 < r.close) (h1 : 1 ≤ t) (ht : t < s.length) :
    ∃ q, pctChangeCol s t = FVal.num q := by
  unfold pctChangeCol
  rw [if_neg (by omega)]
  obtain ⟨c1, hc1, hc1p⟩ := closeAt_pos s (t - 1) hpos (by omega)
  obtain ⟨c2, hc2⟩ := closeAt_num s t ht
  rw [hc1, hc2, FVal.num_div_num _ _ hc1p.ne', FVal.num_sub_num, FVal.num_mul_num]
  exact ⟨_, rfl⟩

theorem pctChangeCol_isNan_iff (s : List PriceRow) (t : ℕ)
    (hpos : ∀ r ∈ s, 0 < r.close) (ht : t < s.length) :
    (pctChangeCol s t).isNan = false ↔ 1 ≤ t := by
  constructor
  · intro h
    by_contra h0
    push_neg at h0
    interval_cases t
    rw [pctChangeCol_nan_zero s] at h
    simp [FVal.isNan] at h
  · intro h1
    obtain ⟨q, hq⟩ := pctChangeCol_num s t hpos h1 ht
    rw [hq]
    rfl

theorem smaCol_isNan_iff (s : List PriceRow) (w t : ℕ)
    (hw : 1 ≤ w) (ht : t < s.length) :
    (smaCol s w t).isNan = false ↔ w ≤ t + 1 := by
  unfold smaCol
  constructor
  · intro h
    by_contra hshort
    push_neg at hshort
    rw [rollingMean_nan_of_short _ _ _ (Or.inr hshort)] at h
    simp [FVal.isNan] at h
  · intro hfull
    obtain ⟨q, hq⟩ := rollingMean_num (closeAt s) w t hw hfull (by
      intro i hi
      exact closeAt_num s (t - i) (by omega))
    rw [hq]
    rfl

theorem ewmRun_length (a : ℚ) (prev : ℚ) (xs : List ℚ) :
    (ewmRun a prev xs).length = xs.length := by
  induction xs generalizing prev with
  | nil => rfl
  | cons x rest ih => simp [ewmRun, ih]

theorem ewmMean_length (span : ℕ) (xs : List ℚ) :
    (ewmMean span xs).length = xs.length := by
  cases xs with
  | nil => rfl
  | cons x rest => simp [ewmMean, ewmRun_length]

theorem closes_length (s : List PriceRow) : (closes s).length = s.length :=
  List.length_map s _

theorem qListAt_num (l : List ℚ) (t : ℕ) (ht : t < l.length) :
    ∃ q, qListAt l t = FVal.num q := by
  unfold qListAt
  rw [List.get?_eq_get ht]
  exact ⟨_, rfl⟩

theorem emaCol_num (s : List PriceRow) (span t : ℕ) (ht : t < s.length) :
    ∃ q, emaCol s span t = FVal.num q := by
  unfold emaCol
  exact qListAt_num _ _ (by rw [ewmMean_length, closes_length]; exact ht)

theorem macdList_length (s : List PriceRow) : (macdList s).length = s.length := by
  unfold macdList
  rw [List.length_zipWith, ewmMean_length, ewmMean_length, closes_length, min_self]

theorem macdSignalList_length (s : List PriceRow) :
    (macdSignalList s).length = s.length := by
  unfold macdSignalList
  rw [ewmMean_length, macdList_length]

theorem macdHistList_length (s : List PriceRow) :
    (macdHistList s).length = s.length := by
  unfold macdHistList
  rw [List.length_zipWith, macdList_length, macdSignalList_length, min_self]

theorem deltaCol_nan_zero (s : List PriceRow) : deltaCol s 0 = FVal.nan := by
  unfold deltaCol
  simp

theorem deltaCol_num (s : List PriceRow) (t : ℕ) (h1 : 1 ≤ t) (ht : t < s.length) :
    ∃ q, deltaCol s t = FVal.num q := by
  unfold deltaCol
  rw [if_neg (by omega)]
  obtain ⟨c1, hc1⟩ := closeAt_num s (t - 1) (by omega)
  obtain ⟨c2, hc2⟩ := closeAt_num s t ht
  rw [hc1, hc2, FVal.num_sub_num]
  exact ⟨_, rfl⟩

theorem upAvg_num (s : List PriceRow) (p t : ℕ)
    (hp : 1 ≤ p) (hpt : p ≤ t) (ht : t < s.length) :
    ∃ u, upAvg s p t = FVal.num u ∧ 0 ≤ u := by
  apply rollingMean_num_nonneg _ _ _ hp (by omega)
  intro i hi
  obtain ⟨q, hq⟩ := deltaCol_num s (t - i) (by omega) (by omega)
  refine ⟨max q 0, ?_, le_max_right _ _⟩
  show FVal.clip_lower0 (deltaCol s (t - i)) = _
  rw [hq]
  rfl

theorem upAvg_nan (s : List PriceRow) (p t : ℕ) (hp : 1 ≤ p) (htp : t < p) :
    upAvg s p t = FVal.nan := by
  rcases lt_or_ge (t + 1) p with h | h
  · exact rollingMean_nan_of_short _ _ _ (Or.inr h)
  · apply rollingMean_nan_of_mem _ p t t hp (by omega) (by omega)
    show FVal.clip_lower0 (deltaCol s (t - t)) = _
    rw [Nat.sub_self, deltaCol_nan_zero]
    rfl

theorem downAvg_num (s : List PriceRow) (p t : ℕ)
    (hp : 1 ≤ p) (hpt : p ≤ t) (ht : t < s.length) :
    ∃ d, downAvg s p t = FVal.num d ∧ 0 ≤ d := by
  obtain ⟨m, hm, hm0⟩ := rollingMean_num_nonpos
    (fun u => FVal.clip_upper0 (deltaCol s u)) p t hp (by omega) (by
      intro i hi
      obtain ⟨q, hq⟩ := deltaCol_num s (t - i) (by omega) (by omega)
      refine ⟨min q 0, ?_, min_le_right _ _⟩
      show FVal.clip_upper0 (deltaCol s (t - i)) = _
      rw [hq]
      rfl)
  unfold downAvg
  rw [hm, FVal.neg_num]
  exact ⟨-m, rfl, by linarith⟩

theorem downAvg_nan (s : List PriceRow) (p t : ℕ) (hp : 1 ≤ p) (htp : t < p) :
    downAvg s p t = FVal.nan := by
  unfold downAvg
  rcases lt_or_ge (t + 1) p with h | h
  · rw [rollingMean_nan_of_short _ _ _ (Or.inr h)]
    rfl
  · rw [rollingMean_nan_of_mem _ p t t hp (by omega) (by omega) (by
      show FVal.clip_upper0 (deltaCol s (t - t)) = _
      rw [Nat.sub_self, deltaCol_nan_zero]
      rfl)]
    rfl

theorem rsiCol_nan_of_lt (s : List PriceRow) (p t : ℕ) (hp : 1 ≤ p) (htp : t < p) :
    rsiCol s p t = FVal.nan := by
  unfold rsiCol rsCol
  rw [upAvg_nan s p t hp htp, FVal.nan_div, FVal.add_nan, FVal.div_nan, FVal.sub_nan]

theorem rsiCol_eq (s : List PriceRow) (p t : ℕ) (u d : ℚ)
    (hu : upAvg s p t = FVal.num u) (hd : downAvg s p t = FVal.num d)
    (hu0 : 0 ≤ u) (hd0 : 0 ≤ d) :
    rsiCol s p t =
      (if d = 0 then (if u = 0 then FVal.nan else FVal.num 100)
       else FVal.num (100 - 100 / (1 + u / d))) := by
  unfold rsiCol rsCol
  rw [hu, hd]
  by_cases hdz : d = 0
  · subst hdz
    by_cases huz : u = 0
    · subst huz
      rw [FVal.zero_div_zero, FVal.add_nan, FVal.div_nan, FVal.sub_nan]
      simp
    · have hupos : 0 < u := lt_of_le_of_ne hu0 (Ne.symm huz)
      rw [FVal.num_div_num_zero_pos u hupos, FVal.num_add_inf]
      rw [show FVal.num 100 / FVal.inf = FVal.num 0 from rfl]
      rw [FVal.num_sub_num]
      simp [huz]
  · have hdpos : 0 < d := lt_of_le_of_ne hd0 (Ne.symm hdz)
    rw [FVal.num_div_num u d hdz]
    have h1 : (0 : ℚ) < 1 + u / d := by
      have := div_nonneg hu0 hdpos.le
      linarith
    rw [FVal.num_add_num, FVal.num_div_num _ _ h1.ne', FVal.num_sub_num]
    rw [if_neg hdz]

theorem rsiCol_isNan_iff (s : List PriceRow) (p t : ℕ)
    (hp : 1 ≤ p) (ht : t < s.length) :
    (rsiCol s p t).isNan = false ↔
      (p ≤ t ∧ ¬(upAvg s p t = FVal.num 0 ∧ downAvg s p t = FVal.num 0)) := by
  by_cases hpt : p ≤ t
  · obtain ⟨u, hu, hu0⟩ := upAvg_num s p t hp hpt ht
    obtain ⟨d, hd, hd0⟩ := downAvg_num s p t hp hpt ht
    rw [rsiCol_eq s p t u d hu hd hu0 hd0]
    by_cases hdz : d = 0
    · by_cases huz : u = 0
      · simp [hdz, huz, hpt, hu, hd, FVal.isNan]
      · simp [hdz, huz, hpt, hu, hd, FVal.isNan]
    · simp [hdz, hpt, hu, hd, FVal.isNan]
  · rw [rsiCol_nan_of_lt s p t hp (by omega)]
    simp [FVal.isNan, hpt]

theorem lagCol_isNan_iff (s : List PriceRow) (i t : ℕ)
    (hpos : ∀ r ∈ s, 0 < r.close) (ht : t < s.length) :
    (lagCol s i t).isNan = false ↔ i + 1 ≤ t := by
  unfold lagCol
  by_cases hti : t < i
  · rw [if_pos hti]
    simp [FVal.isNan]
    omega
  · rw [if_neg hti]
    rw [pctChangeCol_isNan_iff s (t - i) hpos (by omega)]
    omega

theorem futureReturnCol_nan (s : List PriceRow) (shift t : ℕ)
    (h : s.length ≤ t + shift) : futureReturnCol s shift t = FVal.nan := by
  unfold futureReturnCol
  rw [closeAt_nan s (t + shift) h, FVal.nan_div, FVal.nan_sub, FVal.nan_mul]

theorem futureReturnCol_eq (s : List PriceRow) (shift t : ℕ) (a b : PriceRow)
    (hpos : ∀ r ∈ s, 0 < r.close)
    (hta : s.get? t = some a) (htb : s.get? (t + shift) = some b) :
    futureReturnCol s shift t = FVal.num ((b.close / a.close - 1) * 100) := by
  unfold futureReturnCol
  have ha : closeAt s t = FVal.num a.close := by
    unfold closeAt
    rw [hta]
  have hb : closeAt s (t + shift) = FVal.num b.close := by
    unfold closeAt
    rw [htb]
  have hapos : 0 < a.close := hpos a (List.get?_mem hta)
  rw [ha, hb, FVal.num_div_num _ _ hapos.ne', FVal.num_sub_num, FVal.num_mul_num]

theorem futureReturnCol_num (s : List PriceRow) (shift t : ℕ)
    (hpos : ∀ r ∈ s, 0 < r.close) (ht : t + shift < s.length) :
    ∃ q, futureReturnCol s shift t = FVal.num q := by
  obtain ⟨a, ha⟩ : ∃ a, s.get? t = some a := by
    rw [List.get?_eq_get (by omega)]
    exact ⟨_, rfl⟩
  obtain ⟨b, hb⟩ : ∃ b, s.get? (t + shift) = some b := by
    rw [List.get?_eq_get ht]
    exact ⟨_, rfl⟩
  exact ⟨_, futureReturnCol_eq s shift t a b hpos ha hb⟩

theorem priceUpCol_not_nan (s : List PriceRow) (shift t : ℕ) :
    (priceUpCol s shift t).isNan = false := by
  unfold priceUpCol
  split <;> rfl

theorem dowCol_num (s : List PriceRow) (t : ℕ) (ht : t < s.length) :
    ∃ q, dowCol s t = FVal.num q := by
  unfold dowCol
  rw [List.get?_eq_get ht]
  exact ⟨_, rfl⟩

theorem monthCol_num (s : List PriceRow) (t : ℕ) (ht : t < s.length) :
    ∃ q, monthCol s t = FVal.num q := by
  unfold monthCol
  rw [List.get?_eq_get ht]
  exact ⟨_, rfl⟩

theorem futureReturnCol_isNan_iff (s : List PriceRow) (shift t : ℕ)
    (hpos : ∀ r ∈ s, 0 < r.close) :
    (futureReturnCol s shift t).isNan = false ↔ t + shift < s.length := by
  constructor
  · intro h
    by_contra hge
    push_neg at hge
    rw [futureReturnCol_nan s shift t hge] at h
    simp [FVal.isNan] at h
  · intro hlt
    obtain ⟨q, hq⟩ := futureReturnCol_num s shift t hpos hlt
    rw [hq]
    rfl

theorem lagAll_iff (s : List PriceRow) (lags t : ℕ)
    (hpos : ∀ r ∈ s, 0 < r.close) (ht : t < s.length) :
    (∀ i, i < lags → (lagCol s (i + 1) t).isNan = false) ↔
      (lags = 0 ∨ lags + 1 ≤ t) := by
  constructor
  · intro h
    rcases Nat.eq_zero_or_pos lags with h0 | hlpos
    · exact Or.inl h0
    · right
      have hl := h (lags - 1) (by omega)
      rw [show lags - 1 + 1 = lags by omega] at hl
      have := (lagCol_isNan_iff s lags t hpos ht).mp hl
      omega
  · intro h i hi
    rw [lagCol_isNan_iff s (i + 1) t hpos ht]
    rcases h with h0 | hle
    · omega
    · omega

theorem rowComplete_iff (fe : FeatureEngineering) (lags : ℕ) (s : List PriceRow) (t : ℕ)
    (hpos : ∀ r ∈ s, 0 < r.close)
    (hshort : 1 ≤ fe.short) (hlong : 1 ≤ fe.long) (hrsi : 1 ≤ fe.rsi)
    (ht : t < s.length) :
    rowComplete fe lags s t = true ↔
      (1 ≤ t ∧ fe.short - 1 ≤ t ∧ fe.long - 1 ≤ t ∧ fe.rsi ≤ t ∧ lags + 1 ≤ t ∧
        t + 1 < s.length ∧
        ¬(upAvg s fe.rsi t = FVal.num 0 ∧ downAvg s fe.rsi t = FVal.num 0)) := by
  have hpct := pctChangeCol_isNan_iff s t hpos ht
  have hsmaS := smaCol_isNan_iff s fe.short t hshort ht
  have hsmaL := smaCol_isNan_iff s fe.long t hlong ht
  obtain ⟨qes, hes⟩ := emaCol_num s fe.short t ht
  obtain ⟨qel, hel⟩ := emaCol_num s fe.long t ht
  have hrsiI := rsiCol_isNan_iff s fe.rsi t hrsi ht
  obtain ⟨qm, hm⟩ := qListAt_num (macdList s) t (by rw [macdList_length]; exact ht)
  obtain ⟨qms, hms⟩ := qListAt_num (macdSignalList s) t (by rw [macdSignalList_length]; exact ht)
  obtain ⟨qmh, hmh⟩ := qListAt_num (macdHistList s) t (by rw [macdHistList_length]; exact ht)
  obtain ⟨qd, hdow⟩ := dowCol_num s t ht
  obtain ⟨qmo, hmon⟩ := monthCol_num s t ht
  have hfut := futureReturnCol_isNan_iff s 1 t hpos
  have hpu := priceUpCol_not_nan s 1 t
  have hlag := lagAll_iff s lags t hpos ht
  unfold rowComplete engineerCols
  rw [List.all_append, List.all_append]
  simp only [List.all_cons, List.all_nil, Bool.and_eq_true, Bool.and_true,
    Bool.not_eq_true', List.all_eq_true, List.mem_map, List.mem_range,
    forall_exists_index, and_imp, forall_apply_eq_imp_iff₂]
  rw [hes, hel, hm, hms, hmh, hdow, hmon]
  rw [hpct, hsmaS, hsmaL, hrsiI, hfut]
  simp only [FVal.isNan_num, hpu, and_true, true_and]
  constructor
  · rintro ⟨⟨⟨h1, h2, h3, h4, hnz⟩, hlagAll⟩, hf⟩
    have hl := hlag.mp hlagAll
    exact ⟨h1, by omega, by omega, h4, by omega, hf, hnz⟩
  · rintro ⟨h1, h2, h3, h4, h5, h6, h7⟩
    exact ⟨⟨⟨h1, by omega, by omega, h4, h7⟩, hlag.mpr (Or.inr h5)⟩, h6⟩

theorem sumF_all_eq (l : List FVal) (c : ℚ) (h : ∀ v ∈ l, v = FVal.num c) :
    sumF l = FVal.num (l.length * c) := by
  induction l with
  | nil =>
      show FVal.num 0 = _
      norm_num
  | cons x xs ih =>
      show FVal.add x (sumF xs) = _
      rw [h x (by simp), ih (fun v hv => h v (by simp [hv]))]
      rw [show FVal.add (FVal.num c) (FVal.num (xs.length * c)) =
        FVal.num (c + xs.length * c) from rfl]
      congr 1
      rw [List.length_cons]
      push_cast
      ring

theorem upAvg_of_const_deltas (s : List PriceRow) (p t : ℕ) (c : ℚ)
    (hp : 1 ≤ p) (hfull : p ≤ t + 1) (hc : 0 ≤ c)
    (hd : ∀ i < p, deltaCol s (t - i) = FVal.num c) :
    upAvg s p t = FVal.num c := by
  unfold upAvg rollingMean
  rw [if_neg (by omega)]
  rw [sumF_all_eq _ c (by
    intro v hv
    rw [List.mem_map] at hv
    obtain ⟨i, hi, hfi⟩ := hv
    rw [List.mem_range] at hi
    rw [← hfi]
    show FVal.clip_lower0 (deltaCol s (t - i)) = _
    rw [hd i hi]
    show FVal.num (max c 0) = _
    rw [max_eq_left hc])]
  have hp0 : ((p : ℚ)) ≠ 0 := by positivity
  rw [FVal.num_div_num _ _ hp0]
  congr 1
  rw [List.length_map, List.length_range]
  exact mul_div_cancel_left₀ c hp0

theorem downAvg_of_const_deltas (s : List PriceRow) (p t : ℕ) (c : ℚ)
    (hp : 1 ≤ p) (hfull : p ≤ t + 1) (hc : 0 ≤ c)
    (hd : ∀ i < p, deltaCol s (t - i) = FVal.num c) :
    downAvg s p t = FVal.num 0 := by
  unfold downAvg rollingMean
  rw [if_neg (by omega)]
  rw [sumF_all_eq _ 0 (by
    intro v hv
    rw [List.mem_map] at hv
    obtain ⟨i, hi, hfi⟩ := hv
    rw [List.mem_range] at hi
    rw [← hfi]
    show FVal.clip_upper0 (deltaCol s (t - i)) = _
    rw [hd i hi]
    show FVal.num (min c 0) = _
    rw [min_eq_right hc])]
  have hp0 : ((p : ℚ)) ≠ 0 := by positivity
  rw [FVal.num_div_num _ _ hp0]
  rw [show ∀ q : ℚ, -(FVal.num q) = FVal.num (-q) from fun q => rfl]
  congr 1
  norm_num

theorem mem_completeRows_iff (fe : FeatureEngineering) (lags : ℕ)
    (s : List PriceRow) (t : ℕ)
    (hpos : ∀ r ∈ s, 0 < r.close)
    (hshort : 1 ≤ fe.short) (hlong : 1 ≤ fe.long) (hrsi : 1 ≤ fe.rsi) :
    t ∈ completeRows fe lags s ↔
      (1 ≤ t ∧ fe.short - 1 ≤ t ∧ fe.long - 1 ≤ t ∧ fe.rsi ≤ t ∧ lags + 1 ≤ t ∧
        t + 1 < s.length ∧
        ¬(upAvg s fe.rsi t = FVal.num 0 ∧ downAvg s fe.rsi t = FVal.num 0)) := by
  unfold completeRows
  rw [List.mem_filter, List.mem_range]
  constructor
  · rintro ⟨ht, hc⟩
    exact (rowComplete_iff fe lags s t hpos hshort hlong hrsi ht).mp hc
  · intro h
    have ht : t < s.length := by omega
    exact ⟨ht, (rowComplete_iff fe lags s t hpos hshort hlong hrsi ht).mpr h⟩

/-! ### Concrete delta evaluations for the example series -/

theorem exConst5_closeAt (u : ℕ) (h : u < 5) : closeAt exConst5 u = FVal.num 1 := by
  interval_cases u <;> rfl

theorem exConst5_delta (u : ℕ) (h1 : 1 ≤ u) (h5 : u < 5) :
    deltaCol exConst5 u = FVal.num 0 := by
  unfold deltaCol
  rw [if_neg (by omega)]
  rw [exConst5_closeAt u h5, exConst5_closeAt (u - 1) (by omega), FVal.num_sub_num]
  norm_num

theorem exInc3_delta (u : ℕ) (h1 : 1 ≤ u) (h3 : u < 3) :
    deltaCol exInc3 u = FVal.num 1 := by
  unfold deltaCol
  rw [if_neg (by omega)]
  interval_cases u
  · rw [show closeAt exInc3 1 = FVal.num 2 from rfl,
      show closeAt exInc3 (1 - 1) = FVal.num 1 from rfl, FVal.num_sub_num]
    norm_num
  · rw [show closeAt exInc3 2 = FVal.num 3 from rfl,
      show closeAt exInc3 (2 - 1) = FVal.num 2 from rfl, FVal.num_sub_num]
    norm_num

theorem exInc6_delta (u : ℕ) (h1 : 1 ≤ u) (h6 : u < 6) :
    deltaCol exInc6 u = FVal.num 1 := by
  unfold deltaCol
  rw [if_neg (by omega)]
  interval_cases u
  · rw [show closeAt exInc6 1 = FVal.num 2 from rfl,
      show closeAt exInc6 (1 - 1) = FVal.num 1 from rfl, FVal.num_sub_num]
    norm_num
  · rw [show closeAt exInc6 2 = FVal.num 3 from rfl,
      show closeAt exInc6 (2 - 1) = FVal.num 2 from rfl, FVal.num_sub_num]
    norm_num
  · rw [show closeAt exInc6 3 = FVal.num 4 from rfl,
      show closeAt exInc6 (3 - 1) = FVal.num 3 from rfl, FVal.num_sub_num]
    norm_num
  · rw [show closeAt exInc6 4 = FVal.num 5 from rfl,
      show closeAt exInc6 (4 - 1) = FVal.num 4 from rfl, FVal.num_sub_num]
    norm_num
  · rw [show closeAt exInc6 5 = FVal.num 6 from rfl,
      show closeAt exInc6 (5 - 1) = FVal.num 5 from rfl, FVal.num_sub_num]
    norm_num

/-! ### Claim C5 -/

/-- C5: for every series with positive closes, every `shift` at least 1,
and every row `t` that has a row `t + shift`, the engineered label
satisfies `price_up[t] = 1` iff `close[t+shift] > close[t]`, and
`future_return[t] = (close[t+shift]/close[t] - 1) * 100` exactly. -/
theorem add_targets_label_correct (s : List PriceRow) (shift t : ℕ) (a b : PriceRow)
    (hpos : ∀ r ∈ s, 0 < r.close) (hshift : 1 ≤ shift)
    (hta : s.get? t = some a) (htb : s.get? (t + shift) = some b) :
    (priceUpCol s shift t = FVal.num 1 ↔ a.close < b.close) ∧
      futureReturnCol s shift t = FVal.num ((b.close / a.close - 1) * 100) := by
  have hf := futureReturnCol_eq s shift t a b hpos hta htb
  refine ⟨?_, hf⟩
  have hapos : 0 < a.close := hpos a (List.get?_mem hta)
  have key : (0 < (b.close / a.close - 1) * 100) ↔ a.close < b.close := by
    constructor
    · intro h
      have h2 : 1 < b.close / a.close := by nlinarith
      exact (one_lt_div hapos).mp h2
    · intro h
      have h2 : 1 < b.close / a.close := (one_lt_div hapos).mpr h
      nlinarith
  unfold priceUpCol
  rw [hf, FVal.num_lt_num]
  by_cases hc : a.close < b.close
  · rw [if_pos (decide_eq_true (key.mpr hc))]
    exact ⟨fun _ => hc, fun _ => rfl⟩
  · rw [if_neg (fun hd => hc (key.mp (of_decide_eq_true hd)))]
    constructor
    · intro h
      rw [FVal.num.injEq] at h
      norm_num at h
    · intro h
      exact absurd h hc

/-- Witness for C5 at the 2-row series `exPair2` (close rising from 10
to 12): the label at position 0 is 1. -/
theorem add_targets_label_correct_witness : priceUpCol exPair2 1 0 = FVal.num 1 := by
  have hpos : ∀ r ∈ exPair2, 0 < r.close := by
    intro r hr
    simp [exPair2] at hr
    rcases hr with rfl | rfl <;> norm_num
  exact (add_targets_label_correct exPair2 1 0 ⟨0, 10⟩ ⟨1, 12⟩ hpos (le_refl 1)
    rfl rfl).1.mpr (by norm_num)

/-! ### Claim C7 -/

/-- Counterexample to C7: on the strictly increasing series `exInc3`
with `period = 2`, at row 2 the trailing average of downward movement
is exactly zero, yet the rsi value is the NUMBER 100, not a
non-numeric sentinel (pandas evaluates `rs = up/0 = inf` and
`100 - 100/(1+inf) = 100`), so the row is NOT removed by the
drop-incomplete step. -/
theorem rsi_zero_down_counterexample :
    downAvg exInc3 2 2 = FVal.num 0 ∧ upAvg exInc3 2 2 = FVal.num 1 ∧
      rsiCol exInc3 2 2 = FVal.num 100 ∧ (rsiCol exInc3 2 2).isNan = false := by
  have hd : ∀ i < 2, deltaCol exInc3 (2 - i) = FVal.num 1 := by
    intro i hi
    interval_cases i
    · exact exInc3_delta 2 (by norm_num) (by norm_num)
    · exact exInc3_delta 1 (by norm_num) (by norm_num)
  have hup := upAvg_of_const_deltas exInc3 2 2 1 (by norm_num) (by norm_num)
    (by norm_num) hd
  have hdown := downAvg_of_const_deltas exInc3 2 2 1 (by norm_num) (by norm_num)
    (by norm_num) hd
  have hrsi := rsiCol_eq exInc3 2 2 1 0 hup hdown (by norm_num) (le_refl 0)
  rw [if_pos rfl, if_neg one_ne_zero] at hrsi
  exact ⟨hdown, hup, hrsi, by rw [hrsi]; rfl⟩

/-- C7 as amended: at a row where the trailing average of downward
movement is zero, the rsi value is the NaN sentinel exactly when the
average upward movement is also zero (the 0/0 case, e.g. a constant
window); when the average upward movement is positive, `rs` is `+inf`
and the rsi value is the plain number 100 — never an error, but also
not a sentinel, so such a row is not dropped on rsi's account. -/
theorem rsi_zero_down_behavior (s : List PriceRow) (p t : ℕ) (u : ℚ)
    (hu : upAvg s p t = FVal.num u) (hu0 : 0 ≤ u)
    (hd : downAvg s p t = FVal.num 0) :
    (u = 0 → rsiCol s p t = FVal.nan) ∧ (0 < u → rsiCol s p t = FVal.num 100) := by
  have h := rsiCol_eq s p t u 0 hu hd hu0 (le_refl 0)
  rw [if_pos rfl] at h
  constructor
  · intro h0
    rw [h, if_pos h0]
  · intro hup
    rw [h, if_neg hup.ne']

/-- Witness for C7 as amended at `exInc3`, period 2, row 2. -/
theorem rsi_zero_down_behavior_witness : rsiCol exInc3 2 2 = FVal.num 100 := by
  have hd : ∀ i < 2, deltaCol exInc3 (2 - i) = FVal.num 1 := by
    intro i hi
    interval_cases i
    · exact exInc3_delta 2 (by norm_num) (by norm_num)
    · exact exInc3_delta 1 (by norm_num) (by norm_num)
  exact (rsi_zero_down_behavior exInc3 2 2 1
    (upAvg_of_const_deltas exInc3 2 2 1 (by norm_num) (by norm_num) (by norm_num) hd)
    (by norm_num)
    (downAvg_of_const_deltas exInc3 2 2 1 (by norm_num) (by norm_num) (by norm_num) hd)).2
    (by norm_num)

/-! ### Claim C10 -/

/-- C10: for every series and `shift` at least 1, each of the last
`shift` rows (those with no row `t + shift`) gets `future_return = NaN`
but `price_up = 0.0` — a number, not a sentinel: `price_up` alone never
marks these rows incomplete; they are dropped only because their
`future_return` cell is NaN. -/
theorem add_targets_tail_label_zero (s : List PriceRow) (shift t : ℕ)
    (hshift : 1 ≤ shift) (ht : s.length ≤ t + shift) :
    futureReturnCol s shift t = FVal.nan ∧ priceUpCol s shift t = FVal.num 0 ∧
      (priceUpCol s shift t).isNan = false := by
  have hf := futureReturnCol_nan s shift t ht
  refine ⟨hf, ?_, priceUpCol_not_nan s shift t⟩
  unfold priceUpCol
  rw [hf, FVal.lt_nan]
  simp

/-- Witness for C10 at the 2-row series `exPair2`, last row `t = 1`. -/
theorem add_targets_tail_label_zero_witness :
    futureReturnCol exPair2 1 1 = FVal.nan ∧ priceUpCol exPair2 1 1 = FVal.num 0 ∧
      (priceUpCol exPair2 1 1).isNan = false :=
  add_targets_tail_label_zero exPair2 1 1 (le_refl 1) (by simp [exPair2])

/-! ### Claim C6 -/

/-- Counterexample to C6: take the configuration `short = 2, long = 3,
rsi_period = 2`, one lag, shift 1 (the value fixed by `engineer`), and
the constant 5-row series `exConst5`.  The claim predicts that exactly
the first `max(short, long, rsi_period) - 1 = 2` rows and the last
`shift = 1` row are dropped, so rows 2 and 3 survive; in fact the rsi
column is NaN at every row of a constant series (0/0), so NO row
survives the drop-incomplete step. -/
theorem drop_incomplete_counterexample :
    completeRows exFE 1 exConst5 = [] ∧
      (List.range exConst5.length).filter
        (fun t => decide (max (max exFE.short exFE.long) exFE.rsi - 1 ≤ t)
          && decide (t + 1 < exConst5.length)) = [2, 3] := by
  constructor
  · rw [List.eq_nil_iff_forall_not_mem]
    intro t hmem
    have hpos : ∀ r ∈ exConst5, 0 < r.close := by
      intro r hr
      simp [exConst5] at hr
      rcases hr with rfl | rfl | rfl | rfl | rfl <;> norm_num
    have h := (mem_completeRows_iff exFE 1 exConst5 t hpos
      (by norm_num [exFE]) (by norm_num [exFE]) (by norm_num [exFE])).mp hmem
    obtain ⟨-, -, -, h4, -, h6, h7⟩ := h
    have h4' : (2 : ℕ) ≤ t := by simpa [exFE] using h4
    have h6' : t + 1 < 5 := by simpa [exConst5] using h6
    apply h7
    have hd : ∀ i < exFE.rsi, deltaCol exConst5 (t - i) = FVal.num 0 := by
      intro i hi
      have hi' : i < 2 := by simpa [exFE] using hi
      exact exConst5_delta (t - i) (by omega) (by omega)
    exact ⟨upAvg_of_const_deltas exConst5 exFE.rsi t 0
        (by norm_num [exFE]) (by simp only [exFE]; omega) (le_refl 0) hd,
      downAvg_of_const_deltas exConst5 exFE.rsi t 0
        (by norm_num [exFE]) (by simp only [exFE]; omega) (le_refl 0) hd⟩
  · decide

/-- C6 as amended: for every positive-close series and every
configuration with windows at least 1, the drop-incomplete step after
`engineer` (shift fixed at 1) keeps row `t` exactly when (a) `t` has
full window history — `t ≥ max(1, short-1, long-1, rsi_period, lags+1)`
(note the rsi column needs `rsi_period` DELTAS, i.e. `t ≥ rsi_period`,
one row more than the claim's `rsi_period - 1`), (b) `t` is not among
the last `shift = 1` rows, and (c) the rsi window at `t` is not
degenerate (average upward and downward movements both zero, the 0/0
NaN of a locally constant window).  Equivalently: a row is removed iff
one of its derived cells is NaN, so no fully-defined row is ever
removed, but the set of removed rows is larger than the claim's
whenever `rsi_period ≥ max(short, long)`, `lags + 2 > max(short,
long, rsi_period)`, or the series has a constant window. -/
theorem drop_incomplete_characterization
    (fe : FeatureEngineering) (lags : ℕ) (s : List PriceRow) (t : ℕ)
    (hpos : ∀ r ∈ s, 0 < r.close)
    (hshort : 1 ≤ fe.short) (hlong : 1 ≤ fe.long) (hrsi : 1 ≤ fe.rsi) :
    t ∈ completeRows fe lags s ↔
      (1 ≤ t ∧ fe.short - 1 ≤ t ∧ fe.long - 1 ≤ t ∧ fe.rsi ≤ t ∧ lags + 1 ≤ t ∧
        t + 1 < s.length ∧
        ¬(upAvg s fe.rsi t = FVal.num 0 ∧ downAvg s fe.rsi t = FVal.num 0)) :=
  mem_completeRows_iff fe lags s t hpos hshort hlong hrsi

/-- Witness for C6 as amended: on the strictly increasing 6-row series
`exInc6` with the configuration of `exFE` and one lag, row 4 survives
the drop-incomplete step. -/
theorem drop_incomplete_characterization_witness :
    4 ∈ completeRows exFE 1 exInc6 := by
  have hpos : ∀ r ∈ exInc6, 0 < r.close := by
    intro r hr
    simp [exInc6] at hr
    rcases hr with rfl | rfl | rfl | rfl | rfl | rfl <;> norm_num
  have hd : ∀ i < exFE.rsi, deltaCol exInc6 (4 - i) = FVal.num 1 := by
    intro i hi
    have hi' : i < 2 := by simpa [exFE] using hi
    exact exInc6_delta (4 - i) (by omega) (by omega)
  have hup := upAvg_of_const_deltas exInc6 exFE.rsi 4 1
    (by norm_num [exFE]) (by simp only [exFE]; omega) (by norm_num) hd
  refine (drop_incomplete_characterization exFE 1 exInc6 4 hpos
    (by norm_num [exFE]) (by norm_num [exFE]) (by norm_num [exFE])).mpr
    ⟨by norm_num, by norm_num [exFE], by norm_num [exFE], by norm_num [exFE],
     by norm_num, by norm_num [exInc6], ?_⟩
  rintro ⟨h0, -⟩
  rw [hup, FVal.num.injEq] at h0
  norm_num at h0

/-! ### Claim C8 -/

theorem regexSearchCI_iff (p : List RTok) (s : List ℕ) :
    regexSearchCI p s = true ↔ ∃ i, matchHere p (s.drop i) = true := by
  induction s with
  | nil =>
      show matchHere p [] = true ↔ _
      constructor
      · intro h
        exact ⟨0, h⟩
      · rintro ⟨i, hi⟩
        simpa using hi
  | cons c rest ih =>
      show (matchHere p (c :: rest) || regexSearchCI p rest) = true ↔ _
      rw [Bool.or_eq_true, ih]
      constructor
      · rintro (h | ⟨i, hi⟩)
        · exact ⟨0, h⟩
        · exact ⟨i + 1, by simpa using hi⟩
      · rintro ⟨i, hi⟩
        cases i with
        | zero => exact Or.inl (by simpa using hi)
        | succ j => exact Or.inr ⟨j, by simpa using hi⟩

/-- Counterexample to C8: the pattern `N.SDAQ` (a `.` in second
position) is NOT a case-insensitive substring of the label `NASDAQ`,
so the claim says the row must be removed (and, all rows failing,
`NoMatchingRows` raised); in fact `str.contains` treats the pattern as
a regular expression (`regex=True` is the pandas default), `.` matches
the `A`, and `load_and_filter` KEEPS the row and succeeds. -/
theorem filter_regex_counterexample :
    load_and_filter [exNasdaqRow] exPatDot = .ok [exNasdaqRow] ∧
      substrContainsCI exPatDot exNasdaqRow.stock_index = false := by
  constructor
  · decide
  · decide

/-- C8 as amended: for every pattern inside the modelled regex
fragment (no Python regex metacharacter other than `.`, the fragment
on which the embedding coincides with `re`), `load_and_filter` keeps
exactly the rows whose label the pattern matches as a case-insensitive
REGULAR EXPRESSION searched at any position (pandas `str.contains`
with its default `regex=True`; `.` matches any character), and fails
with `NoMatchingRows` iff no row's label matches anywhere.  Literal
substring semantics therefore holds only for dot-free patterns;
patterns using other metacharacters follow full Python `re` semantics
and are outside the scope of this theorem. -/
theorem load_and_filter_regex_semantics (rows : List IndexRow) (pat : List ℕ)
    (hscope : patternInScope pat = true) :
    ((load_and_filter rows pat).toOption = none ↔
      ∀ r ∈ rows, ¬ ∃ i, matchHere (compilePattern pat) (r.stock_index.drop i) = true) ∧
    ∀ kept, load_and_filter rows pat = .ok kept →
      (kept = rows.filter (fun r => regexSearchCI (compilePattern pat) r.stock_index) ∧
        kept ≠ []) := by
  have hiff :
      (rows.filter (fun r => regexSearchCI (compilePattern pat) r.stock_index)) = [] ↔
        ∀ r ∈ rows, ¬ ∃ i, matchHere (compilePattern pat) (r.stock_index.drop i) = true := by
    rw [List.filter_eq_nil]
    constructor
    · intro h r hr hex
      exact h r hr ((regexSearchCI_iff _ _).mpr hex)
    · intro h r hr hcontra
      exact h r hr ((regexSearchCI_iff _ _).mp hcontra)
  unfold load_and_filter
  by_cases hemp :
      (rows.filter (fun r => regexSearchCI (compilePattern pat) r.stock_index)).isEmpty
  · rw [if_pos hemp]
    constructor
    · constructor
      · intro _
        exact hiff.mp (List.isEmpty_iff.mp hemp)
      · intro _
        rfl
    · intro kept hk
      exact absurd hk (by simp)
  · rw [if_neg hemp]
    constructor
    · constructor
      · intro h
        exact absurd h (by simp [Except.toOption])
      · intro h
        refine absurd (hiff.mpr h) ?_
        intro hnil
        rw [hnil] at hemp
        exact hemp rfl
    · intro kept hk
      have hkk : kept = rows.filter
          (fun r => regexSearchCI (compilePattern pat) r.stock_index) := by
        injection hk with h'
        exact h'.symm
      refine ⟨hkk, ?_⟩
      rw [hkk]
      intro hnil
      rw [hnil] at hemp
      exact hemp rfl

/-- Witness for C8 as amended: filtering the one-row NASDAQ table by
the literal pattern `Q` keeps the row. -/
theorem load_and_filter_regex_semantics_witness :
    [exNasdaqRow] = List.filter
      (fun r => regexSearchCI (compilePattern exPatQ) r.stock_index) [exNasdaqRow] :=
  ((load_and_filter_regex_semantics [exNasdaqRow] exPatQ (by decide)).2 [exNasdaqRow]
    (by decide)).1

/-! ### Claim C9 -/

theorem bool_dedup_two_iff (l : List Bool) :
    1 < l.dedup.length ↔ (true ∈ l ∧ false ∈ l) := by
  constructor
  · intro h
    cases hd : l.dedup with
    | nil =>
        rw [hd] at h
        simp at h
    | cons a tail =>
        cases tail with
        | nil =>
            rw [hd] at h
            simp at h
        | cons b rest =>
            have hnd := l.nodup_dedup
            rw [hd] at hnd
            have hab : a ≠ b := by
              have := (List.nodup_cons.mp hnd).1
              intro hcon
              exact this (hcon ▸ List.mem_cons_self b rest)
            have ha : a ∈ l := List.mem_dedup.mp (by rw [hd]; simp)
            have hb : b ∈ l := List.mem_dedup.mp (by rw [hd]; simp)
            cases a <;> cases b
            · exact absurd rfl hab
            · exact ⟨hb, ha⟩
            · exact ⟨ha, hb⟩
            · exact absurd rfl hab
  · rintro ⟨ht, hf⟩
    have ht' : true ∈ l.dedup := List.mem_dedup.mpr ht
    have hf' : false ∈ l.dedup := List.mem_dedup.mpr hf
    cases hd : l.dedup with
    | nil =>
        rw [hd] at ht'
        simp at ht'
    | cons a tail =>
        cases tail with
        | nil =>
            rw [hd] at ht' hf'
            rw [List.mem_singleton] at ht' hf'
            rw [← ht'] at hf'
            exact absurd hf' (by simp)
        | cons b rest =>
            simp only [List.length_cons]
            omega

/-- C9: for every fitted pipeline and non-empty test set, `evaluate`
returns a full metrics record (it is a total function: accuracy,
report and confusion matrix are always present), and its `roc_auc`
entry is a number exactly when the pipeline supports probability
estimates (`predict_proba` does not raise) AND the test labels contain
both classes; otherwise that entry is `None`, never an error. -/
theorem evaluate_roc_auc_condition {α : Type} (pl : FittedPipeline α)
    (X : List α) (y : List Bool) (hy : y ≠ []) :
    (BaseTrainer.evaluate pl X y).roc_auc.isSome = true ↔
      (pl.predictProba.isSome = true ∧ true ∈ y ∧ false ∈ y) := by
  unfold BaseTrainer.evaluate
  cases hp : pl.predictProba with
  | none => simp
  | some f =>
      by_cases hdd : 1 < y.dedup.length
      · simp [hdd, (bool_dedup_two_iff y).mp hdd]
      · simp [hdd]
        intro hc1 hc2
        exact absurd ((bool_dedup_two_iff y).mpr ⟨hc1, hc2⟩) hdd

/-- Witness for C9: a probability-capable pipeline on a two-row test
set holding both classes yields a numeric ROC-AUC. -/
theorem evaluate_roc_auc_condition_witness :
    (BaseTrainer.evaluate exPipelineProba [0, 1] [true, false]).roc_auc.isSome = true :=
  (evaluate_roc_auc_condition exPipelineProba [0, 1] [true, false]
    (by simp)).mpr ⟨rfl, by simp, by simp⟩
